import Mathlib

/-!
# Verification of the transcript rendering subsystem

Shallow embedding of `app/formats.py` and `app/io_utils.py` of the
youtube-transcriber repository.  Python strings are modelled as `List Char`,
Python floats as exact rationals `ℚ`, and fallible operations return
`Except`.  The ambient wall-clock reading consulted by `datetime.now()` is
passed explicitly as a `now` string where the source consults it.
-/

namespace Transcriber

/-- Python `str.split()` / `str.strip()` whitespace set (ASCII fragment). -/
def isSpace (c : Char) : Bool :=
  c = ' ' || c = '\t' || c = '\n' || c = '\r' || c = '\x0b' || c = '\x0c'

/-- ASCII lowering of one character, as `str.lower` acts on ASCII input. -/
def lowerChar (c : Char) : Char :=
  if 'A' ≤ c ∧ c ≤ 'Z' then Char.ofNat (c.toNat + 32) else c

/-- Python `str.lower` (ASCII fragment). -/
def pyLower (s : List Char) : List Char := s.map lowerChar

/-- Python `str.strip()`: drop leading and trailing whitespace. -/
def pyStrip (l : List Char) : List Char :=
  ((l.dropWhile isSpace).reverse.dropWhile isSpace).reverse

/-- The decimal digit character for `d < 10`. -/
def digitChar (d : Nat) : Char := Char.ofNat (48 + d)

/-- Decimal digits of a natural number, fuel-indexed so that the
definition is structural; fuel `n + 1` always suffices. -/
def natDigitsAux : Nat → Nat → List Char
  | 0, _ => []
  | fuel + 1, n =>
    if n < 10 then [digitChar n]
    else natDigitsAux fuel (n / 10) ++ [digitChar (n % 10)]

/-- Decimal rendering of a natural number, as Python `str(n)`. -/
def natDigits (n : Nat) : List Char := natDigitsAux (n + 1) n

/-- Zero-pad a digit string on the left to width `w`. -/
def zeroPad (w : Nat) (ds : List Char) : List Char :=
  List.replicate (w - ds.length) '0' ++ ds

/-- Python `f"{n:0wd}"` for an integer: sign first, zero padding after. -/
def pyPad (w : Nat) (n : ℤ) : List Char :=
  if n < 0 then '-' :: zeroPad (w - 1) (natDigits n.natAbs)
  else zeroPad w (natDigits n.natAbs)

/-- Python `int(q)`: truncation toward zero. -/
def pyInt (q : ℚ) : ℤ := if q < 0 then -⌊-q⌋ else ⌊q⌋

/-- Python float `a // b`: floor division (the result is an integral float). -/
def pyFloorDiv (a b : ℚ) : ℚ := (⌊a / b⌋ : ℚ)

/-- Python float `a % b`: `a - b * floor(a / b)`. -/
def pyMod (a b : ℚ) : ℚ := a - b * ⌊a / b⌋

/-- `hours = int(seconds // 3600)` in `seconds_to_srt_time` / `_vtt_time`. -/
def hoursOf (s : ℚ) : ℤ := pyInt (pyFloorDiv s 3600)

/-- `minutes = int((seconds % 3600) // 60)`. -/
def minutesOf (s : ℚ) : ℤ := pyInt (pyFloorDiv (pyMod s 3600) 60)

/-- `secs = int(seconds % 60)`. -/
def secsOf (s : ℚ) : ℤ := pyInt (pyMod s 60)

/-- `millis = int((seconds % 1) * 1000)`. -/
def millisOf (s : ℚ) : ℤ := pyInt (pyMod s 1 * 1000)

/-- `seconds_to_srt_time` from `app/formats.py`:
`f"{hours:02d}:{minutes:02d}:{secs:02d},{millis:03d}"`. -/
def seconds_to_srt_time (seconds : ℚ) : List Char :=
  pyPad 2 (hoursOf seconds) ++ ':' :: pyPad 2 (minutesOf seconds) ++
    ':' :: pyPad 2 (secsOf seconds) ++ ',' :: pyPad 3 (millisOf seconds)

/-- `seconds_to_vtt_time` from `app/formats.py`:
`f"{hours:02d}:{minutes:02d}:{secs:02d}.{millis:03d}"`. -/
def seconds_to_vtt_time (seconds : ℚ) : List Char :=
  pyPad 2 (hoursOf seconds) ++ ':' :: pyPad 2 (minutesOf seconds) ++
    ':' :: pyPad 2 (secsOf seconds) ++ '.' :: pyPad 3 (millisOf seconds)

/-! ## The cue wrapper `SRTFormatter._wrap_text` -/

/-- Worker for Python `str.split()` (split on whitespace runs, dropping
empty tokens); `cur` holds the current token reversed. -/
def splitWSAux : List Char → List Char → List (List Char)
  | [], cur => if cur = [] then [] else [cur.reverse]
  | c :: cs, cur =>
    if isSpace c then
      if cur = [] then splitWSAux cs [] else cur.reverse :: splitWSAux cs []
    else splitWSAux cs (c :: cur)

/-- Python `text.split()`. -/
def splitWS (l : List Char) : List (List Char) := splitWSAux l []

/-- Python `" ".join(words)`. -/
def joinWords : List (List Char) → List Char
  | [] => []
  | [w] => w
  | w :: ws => w ++ ' ' :: joinWords ws

/-- Python `"\n".join(lines)`. -/
def joinLines : List (List Char) → List Char
  | [] => []
  | [l] => l
  | l :: ls => l ++ '\n' :: joinLines ls

/-- The loop of `SRTFormatter._wrap_text`: greedily pack the words `ws`
into lines, `cur` being the accumulating current line. -/
def wrapWords (maxWidth : Nat) : List (List Char) → List (List Char) →
    List (List (List Char))
  | cur, [] => if cur = [] then [] else [cur]
  | cur, w :: ws =>
    if maxWidth < (joinWords (cur ++ [w])).length then
      if cur = [] then [w] :: wrapWords maxWidth [] ws
      else cur :: wrapWords maxWidth [w] ws
    else wrapWords maxWidth (cur ++ [w]) ws

/-- `SRTFormatter._wrap_text(text, max_width)` from `app/formats.py`. -/
def wrap_text (text : List Char) (max_width : Nat) : List Char :=
  joinLines ((wrapWords max_width [] (splitWS text)).map joinWords)

/-! ## Data model (`app/models.py`) -/

/-- A JSON-serialisable Python value (the payload type of
`TranscriptionResult.raw_response` and of `JSONFormatter`'s document). -/
inductive Json where
  | null
  | str (s : List Char)
  | num (q : ℚ)
  | bool (b : Bool)
  | obj (fields : List (List Char × Json))
  | arr (elems : List Json)

/-- `Segment` from `app/models.py`. -/
structure Segment where
  start_time : ℚ
  end_time : ℚ
  text : List Char
  speaker : Option (List Char)
  confidence : Option ℚ

/-- `TranscriptionResult` from `app/models.py`; `raw_response` is an
optional Python dict, modelled as an ordered association list. -/
structure TranscriptionResult where
  text : List Char
  language : List Char
  segments : List Segment
  duration : ℚ
  raw_response : Option (List (List Char × Json))

/-! ## Formatters (`app/formats.py`) -/

/-- `PlainTextFormatter.format`. -/
def plain_format (result : TranscriptionResult) : List Char := result.text

/-- Round a rational to the nearest integer, ties to even (the rounding
used by Python's fixed-point float formatting). -/
def roundHalfEven (q : ℚ) : ℤ :=
  let f := ⌊q⌋
  let r := q - f
  if r < 1/2 then f
  else if 1/2 < r then f + 1
  else if f % 2 = 0 then f else f + 1

/-- Python `f"{x:.1f}"`. -/
def formatOneDecimal (q : ℚ) : List Char :=
  let n := roundHalfEven (q * 10)
  (if n < 0 then ['-'] else []) ++
    natDigits (n.natAbs / 10) ++ '.' :: natDigits (n.natAbs % 10)

/-- The metadata line of `MarkdownFormatter.format`; `now` is the
`datetime.now().isoformat()` reading at invocation time. -/
def mdMeta (result : TranscriptionResult) (now : List Char) : List Char :=
  "**Language:** ".toList ++ result.language ++ " | **Duration:** ".toList ++
    formatOneDecimal result.duration ++ "s | **Transcribed:** ".toList ++ now

/-- `f" ({segment.speaker})" if segment.speaker else ""` (Python truthiness:
both `None` and the empty string yield no tag). -/
def mdSpeakerTag : Option (List Char) → List Char
  | some s => if s = [] then [] else " (".toList ++ s ++ ")".toList
  | none => []

/-- The per-segment lines appended by `MarkdownFormatter.format`. -/
def mdSegLines : List Segment → List (List Char)
  | [] => []
  | seg :: rest =>
    ("**[".toList ++ seconds_to_srt_time seg.start_time ++ " - ".toList ++
        seconds_to_srt_time seg.end_time ++ "]** ".toList ++ seg.text ++
        mdSpeakerTag seg.speaker) :: [] :: mdSegLines rest

/-- `MarkdownFormatter.format` (the Report renderer). -/
def markdown_format (result : TranscriptionResult) (now : List Char) :
    List Char :=
  joinLines (["# Transcript".toList, [], mdMeta result now, [],
    "---".toList, []] ++ mdSegLines result.segments)

/-- The per-segment lines appended by `SRTFormatter.format`, with the
1-based running cue number `idx`. -/
def srtSegLines : Nat → List Segment → List (List Char)
  | _, [] => []
  | idx, seg :: rest =>
    natDigits idx ::
      (seconds_to_srt_time seg.start_time ++ " --> ".toList ++
        seconds_to_srt_time seg.end_time) ::
      wrap_text seg.text 42 :: [] :: srtSegLines (idx + 1) rest

/-- `SRTFormatter.format` (the Cue-A renderer). -/
def srt_format (result : TranscriptionResult) : List Char :=
  pyStrip (joinLines (srtSegLines 1 result.segments))

/-- The per-segment lines appended by `VTTFormatter.format`. -/
def vttSegLines : List Segment → List (List Char)
  | [] => []
  | seg :: rest =>
    (seconds_to_vtt_time seg.start_time ++ " --> ".toList ++
        seconds_to_vtt_time seg.end_time) ::
      wrap_text seg.text 42 :: [] :: vttSegLines rest

/-- `VTTFormatter.format` (the Cue-B renderer). -/
def vtt_format (result : TranscriptionResult) : List Char :=
  pyStrip (joinLines ("WEBVTT".toList :: [] :: vttSegLines result.segments))

/-- The JSON object built for one segment by `JSONFormatter.format`. -/
def segmentJson (seg : Segment) : Json :=
  .obj [("start".toList, .num seg.start_time),
        ("end".toList, .num seg.end_time),
        ("text".toList, .str seg.text),
        ("speaker".toList, match seg.speaker with
          | some s => .str s
          | none => .null),
        ("confidence".toList, match seg.confidence with
          | some c => .num c
          | none => .null)]

/-- The ordered top-level dict `data` built by `JSONFormatter.format`
(the serialised document is `json.dumps` of this object); `now` is the
`datetime.now().isoformat()` reading.  `raw_api_response` is attached
exactly when `if result.raw_response:` is truthy, i.e. the dict is
present and non-empty. -/
def json_format_data (result : TranscriptionResult) (now : List Char) :
    List (List Char × Json) :=
  [("metadata".toList, .obj
      [("language".toList, .str result.language),
       ("duration".toList, .num result.duration),
       ("transcribed_at".toList, .str now),
       ("segment_count".toList, .num result.segments.length)]),
   ("transcript".toList, .str result.text),
   ("segments".toList, .arr (result.segments.map segmentJson))] ++
  (match result.raw_response with
    | some raw => if raw.isEmpty then [] else [("raw_api_response".toList, .obj raw)]
    | none => [])

/-- The top-level keys of `JSONFormatter.format`'s document. -/
def jsonTopKeys (result : TranscriptionResult) (now : List Char) :
    List (List Char) :=
  (json_format_data result now).map Prod.fst

/-! ## Registry (`FormatterFactory`) -/

/-- The five singleton formatter objects of `FormatterFactory.FORMATTERS`. -/
inductive OutputFormatter where
  | plainText
  | markdown
  | srt
  | vtt
  | json
deriving DecidableEq

/-- `FormatterFactory.FORMATTERS` (insertion order of the dict literal). -/
def FORMATTERS : List (List Char × OutputFormatter) :=
  [("txt".toList, .plainText), ("md".toList, .markdown),
   ("srt".toList, .srt), ("vtt".toList, .vtt), ("json".toList, .json)]

/-- Dict lookup `FORMATTERS.get(key)`. -/
def lookupFmt (k : List Char) : List (List Char × OutputFormatter) →
    Option OutputFormatter
  | [] => none
  | p :: rest => if k = p.1 then some p.2 else lookupFmt k rest

/-- `FormatterFactory.get_formatter`: case-insensitive lookup; on a miss
raises `ValueError` (the spec's `UnknownFormatError`) carrying the
identifier as given. -/
def get_formatter (format_name : List Char) :
    Except (List Char) OutputFormatter :=
  match lookupFmt (pyLower format_name) FORMATTERS with
  | some f => .ok f
  | none => .error format_name

/-! ## Invocation-time model

A call `formatter.format(result)` in the source executes at some
wall-clock instant; `invoke_*` makes that instant (`now`, the string
`datetime.now().isoformat()` would produce) explicit for every renderer.
Only the Markdown and JSON bodies ever consult it. -/

/-- Invoke `PlainTextFormatter.format` at clock reading `now`. -/
def invoke_plain (result : TranscriptionResult) (_now : List Char) :
    List Char := plain_format result

/-- Invoke `MarkdownFormatter.format` at clock reading `now`. -/
def invoke_markdown (result : TranscriptionResult) (now : List Char) :
    List Char := markdown_format result now

/-- Invoke `SRTFormatter.format` at clock reading `now`. -/
def invoke_srt (result : TranscriptionResult) (_now : List Char) :
    List Char := srt_format result

/-- Invoke `VTTFormatter.format` at clock reading `now`. -/
def invoke_vtt (result : TranscriptionResult) (_now : List Char) :
    List Char := vtt_format result

/-- Invoke `JSONFormatter.format` at clock reading `now` (document value
before serialisation). -/
def invoke_json (result : TranscriptionResult) (now : List Char) :
    List (List Char × Json) := json_format_data result now

/-! ## File utilities (`app/io_utils.py`)

The filesystem is modelled as the list of directories that exist.
Paths are POSIX path strings; `pathJoin` below models `pathlib`'s
`Path.__truediv__` (`PurePosixPath` semantics). -/

/-- Split a list at every occurrence of `sep` (keeping empty parts), as
`str.split(sep)`; `cur` holds the current part reversed. -/
def splitOnCharAux (sep : Char) : List Char → List Char → List (List Char)
  | [], cur => [cur.reverse]
  | c :: cs, cur =>
    if c = sep then cur.reverse :: splitOnCharAux sep cs []
    else splitOnCharAux sep cs (c :: cur)

/-- `str.split(sep)`. -/
def splitOnChar (sep : Char) (l : List Char) : List (List Char) :=
  splitOnCharAux sep l []

/-- Join path components with `/`. -/
def joinPathComponents : List (List Char) → List Char
  | [] => []
  | [c] => c
  | c :: cs => c ++ '/' :: joinPathComponents cs

/-- The root of a POSIX path string, as `PurePosixPath` parses it:
`""` for a relative path, `"/"` for an absolute one, and the POSIX
special case `"//"` for a path starting with exactly two slashes
(three or more collapse back to `"/"`). -/
def rootOf (s : List Char) : List Char :=
  if s.take 3 = ['/', '/', '/'] then ['/']
  else if s.take 2 = ['/', '/'] then ['/', '/']
  else if s.take 1 = ['/'] then ['/']
  else []

/-- `PurePosixPath` keeps a component iff it is neither empty (runs of
slashes collapse) nor `"."`. -/
def keepComp (c : List Char) : Bool := decide (c ≠ [] ∧ c ≠ ['.'])

/-- The component list of a POSIX path string, as `PurePosixPath`
parses it (empty and `"."` components dropped, `".."` kept). -/
def pathParts (s : List Char) : List (List Char) :=
  (splitOnChar '/' s).filter keepComp

/-- `str()` of a `PurePosixPath` with the given root and components
(the empty relative path renders as `"."`). -/
def renderPath (root : List Char) (parts : List (List Char)) : List Char :=
  if parts = [] then (if root = [] then ['.'] else root)
  else root ++ joinPathComponents parts

/-- `str(PurePosixPath(p) / q)`: when the joined segment `q` is
absolute it discards `p` entirely; otherwise the components concatenate
under `p`'s root. -/
def pathJoin (p q : List Char) : List Char :=
  if rootOf q ≠ [] then renderPath (rootOf q) (pathParts q)
  else renderPath (rootOf p) (pathParts p ++ pathParts q)

/-- A directory string already in `pathlib` canonical form (it renders
back to itself) with at least one component — e.g. `"out"` or
`"a/b"`, but not `""`, `"."`, `"out/"` or `"/"` alone. -/
def CanonicalDir (dir : List Char) : Prop :=
  renderPath (rootOf dir) (pathParts dir) = dir ∧ pathParts dir ≠ []

/-- A string that is a single ordinary path component: non-empty, not
`"."`, and containing no separator. -/
def PlainName (s : List Char) : Prop :=
  s ≠ [] ∧ s ≠ ['.'] ∧ '/' ∉ s

/-- `Path.mkdir(parents=..., exist_ok=...)`: raises `FileExistsError`
(carrying the path) when the directory exists and `exist_ok` is false. -/
def mkdir (fs : List (List Char)) (dir : List Char)
    (_parents exist_ok : Bool) : Except (List Char) (List (List Char)) :=
  if dir ∈ fs then
    if exist_ok then .ok fs else .error dir
  else .ok (dir :: fs)

/-- `FileUtils.generate_output_path`: `output_dir.mkdir(parents=True,
exist_ok=True)`, then `output_dir / f"{base_name}.{language}.{format}"`
(`pathlib` join). -/
def generate_output_path (fs : List (List Char))
    (base_name language format : List Char) (output_dir : List Char) :
    Except (List Char) (List (List Char) × List Char) :=
  match mkdir fs output_dir true true with
  | .error e => .error e
  | .ok fs1 =>
    .ok (fs1, pathJoin output_dir
      (base_name ++ '.' :: language ++ '.' :: format))

/-- `\w` of `re` (ASCII fragment): letter, digit or underscore. -/
def isWordChar (c : Char) : Bool :=
  ('a' ≤ c && c ≤ 'z') || ('A' ≤ c && c ≤ 'Z') ||
    ('0' ≤ c && c ≤ '9') || c = '_'

/-- A character the pattern `[^\w\-. ]` of `SAFE_FILENAME_PATTERN`
does NOT match (and hence survives substitution). -/
def safeChar (c : Char) : Bool :=
  isWordChar c || c = '-' || c = '.' || c = ' '

/-- Collapse each maximal run of the character `t` of length at least
two to a single `t` (the effect of substituting `t{2,}` by `t`);
`inRun` records whether the previous character was `t`. -/
def collapseRunAux (t : Char) (inRun : Bool) : List Char → List Char
  | [] => []
  | c :: cs =>
    if c = t then
      if inRun then collapseRunAux t true cs
      else c :: collapseRunAux t true cs
    else c :: collapseRunAux t false cs

/-- `re.sub(t{2,}, t, l)`. -/
def collapseRun (t : Char) (l : List Char) : List Char :=
  collapseRunAux t false l

/-- Python `l.strip(" .")`. -/
def stripDotSpace (l : List Char) : List Char :=
  ((l.dropWhile fun c => c = ' ' || c = '.').reverse.dropWhile
    fun c => c = ' ' || c = '.').reverse

/-- Python `l.rstrip(".")`. -/
def rstripDot (l : List Char) : List Char :=
  (l.reverse.dropWhile fun c => c = '.').reverse

/-- Python `l.rsplit(" ", 1)[0]`. -/
def rsplitSpaceHead (l : List Char) : List Char :=
  if ' ' ∈ l then (((l.reverse.dropWhile fun c => c ≠ ' ').drop 1)).reverse
  else l

/-- `FileUtils.sanitize_filename` from `app/io_utils.py`. -/
def sanitize_filename (filename : List Char) (max_length : Nat := 200) :
    List Char :=
  let safe := filename.map fun c => if safeChar c then c else '-'
  let safe := collapseRun '.' safe
  let safe := collapseRun ' ' safe
  let safe := stripDotSpace safe
  let safe := if max_length < safe.length then
      rstripDot (rsplitSpaceHead (safe.take max_length))
    else safe
  if safe = [] then "transcript".toList else safe

/-! ### Path resolution (for reasoning about where a built path points) -/

/-- Lexically resolve `.` and `..` components against a stack of
components already descended into (the effect of `os.path.normpath` on a
relative path staying inside the tree; a `..` at the root escapes and is
kept). -/
def resolveComponents (stack : List (List Char)) :
    List (List Char) → List (List Char)
  | [] => stack.reverse
  | comp :: rest =>
    if comp = "..".toList then
      match stack with
      | [] => resolveComponents [comp] rest
      | top :: stack1 =>
        if top = "..".toList then resolveComponents (comp :: stack) rest
        else resolveComponents stack1 rest
    else if comp = ".".toList || comp = [] then resolveComponents stack rest
    else resolveComponents (comp :: stack) rest

/-- Lexical normalisation of a relative path (`os.path.normpath`-like):
where the path actually points once `.` and `..` are resolved. -/
def normalizePath (p : List Char) : List Char :=
  joinPathComponents (resolveComponents [] (splitOnChar '/' p))

/-! ## Registry lemmas -/

theorem lookupFmt_nil (k : List Char) : lookupFmt k [] = none := rfl

theorem lookupFmt_cons (k : List Char) (p : List Char × OutputFormatter)
    (rest : List (List Char × OutputFormatter)) :
    lookupFmt k (p :: rest) =
      if k = p.1 then some p.2 else lookupFmt k rest := rfl

theorem lookupFmt_eq_none_iff (k : List Char)
    (l : List (List Char × OutputFormatter)) :
    lookupFmt k l = none ↔ k ∉ l.map Prod.fst := by
  induction l with
  | nil => exact ⟨fun _ h => List.not_mem_nil k h, fun _ => rfl⟩
  | cons p rest ih =>
    rw [lookupFmt_cons]
    by_cases h : k = p.1
    · rw [if_pos h]
      constructor
      · exact fun hc => Option.noConfusion hc
      · intro hmem
        exact absurd (by rw [List.map_cons, h]; exact List.mem_cons_self _ _)
          hmem
    · rw [if_neg h, ih]
      constructor
      · intro hmem hk
        rw [List.map_cons, List.mem_cons] at hk
        exact hk.elim h hmem
      · intro hnk hmem
        exact hnk (by rw [List.map_cons]; exact List.mem_cons_of_mem _ hmem)

theorem get_formatter_ok_iff (name : List Char) :
    (∃ f, get_formatter name = .ok f) ↔
      pyLower name ∈ FORMATTERS.map Prod.fst := by
  unfold get_formatter
  cases hl : lookupFmt (pyLower name) FORMATTERS with
  | none =>
    have hmem := (lookupFmt_eq_none_iff (pyLower name) FORMATTERS).mp hl
    simp [hmem]
  | some f =>
    have hmem : pyLower name ∈ FORMATTERS.map Prod.fst := by
      by_contra hmem
      rw [(lookupFmt_eq_none_iff _ _).mpr hmem] at hl
      cases hl
    simp only [hmem, iff_true]
    exact ⟨f, rfl⟩

theorem get_formatter_congr (name name' : List Char) (f : OutputFormatter)
    (h : pyLower name = pyLower name')
    (hok : get_formatter name = .ok f) : get_formatter name' = .ok f := by
  unfold get_formatter at hok ⊢
  rw [← h]
  cases hl : lookupFmt (pyLower name) FORMATTERS with
  | none =>
    rw [hl] at hok
    exact Except.noConfusion hok
  | some g =>
    rw [hl] at hok
    injection hok with h2
    rw [h2]

theorem get_formatter_error (name : List Char)
    (h : pyLower name ∉ FORMATTERS.map Prod.fst) :
    get_formatter name = .error name := by
  unfold get_formatter
  rw [(lookupFmt_eq_none_iff _ _).mpr h]

/-! ## Cue wrapper lemmas -/

/-- A word produced by `splitWS`: non-empty and whitespace-free. -/
def GoodToken (t : List Char) : Prop :=
  t ≠ [] ∧ ∀ c ∈ t, isSpace c = false

theorem splitWSAux_nil (cur : List Char) :
    splitWSAux [] cur = if cur = [] then [] else [cur.reverse] := rfl

theorem splitWSAux_cons (c : Char) (cs cur : List Char) :
    splitWSAux (c :: cs) cur =
      if isSpace c then
        if cur = [] then splitWSAux cs [] else cur.reverse :: splitWSAux cs []
      else splitWSAux cs (c :: cur) := rfl

theorem joinWords_nil : joinWords [] = [] := rfl

theorem joinWords_single (w : List Char) : joinWords [w] = w := rfl

theorem joinWords_cons (w w' : List Char) (ws : List (List Char)) :
    joinWords (w :: w' :: ws) = w ++ ' ' :: joinWords (w' :: ws) := rfl

theorem joinLines_nil : joinLines [] = [] := rfl

theorem joinLines_single (l : List Char) : joinLines [l] = l := rfl

theorem joinLines_cons (l l' : List Char) (ls : List (List Char)) :
    joinLines (l :: l' :: ls) = l ++ '\n' :: joinLines (l' :: ls) := rfl

theorem wrapWords_nil (mw : Nat) (cur : List (List Char)) :
    wrapWords mw cur [] = if cur = [] then [] else [cur] := rfl

theorem wrapWords_cons (mw : Nat) (cur : List (List Char)) (w : List Char)
    (ws : List (List Char)) :
    wrapWords mw cur (w :: ws) =
      if mw < (joinWords (cur ++ [w])).length then
        if cur = [] then [w] :: wrapWords mw [] ws
        else cur :: wrapWords mw [w] ws
      else wrapWords mw (cur ++ [w]) ws := rfl

theorem splitOnCharAux_nil (sep : Char) (cur : List Char) :
    splitOnCharAux sep [] cur = [cur.reverse] := rfl

theorem splitOnCharAux_cons (sep c : Char) (cs cur : List Char) :
    splitOnCharAux sep (c :: cs) cur =
      if c = sep then cur.reverse :: splitOnCharAux sep cs []
      else splitOnCharAux sep cs (c :: cur) := rfl

theorem splitWSAux_good (l : List Char) : ∀ cur : List Char,
    (∀ c ∈ cur, isSpace c = false) → ∀ t ∈ splitWSAux l cur, GoodToken t := by
  induction l with
  | nil =>
    intro cur hcur t ht
    rw [splitWSAux_nil] at ht
    by_cases h : cur = []
    · rw [if_pos h] at ht
      exact absurd ht (List.not_mem_nil t)
    · rw [if_neg h] at ht
      rw [List.mem_singleton] at ht
      subst ht
      exact ⟨fun hr => h (List.reverse_eq_nil_iff.mp hr),
        fun c hc => hcur c (List.mem_reverse.mp hc)⟩
  | cons c cs ih =>
    intro cur hcur t ht
    rw [splitWSAux_cons] at ht
    by_cases hsp : isSpace c = true
    · rw [if_pos hsp] at ht
      by_cases h : cur = []
      · rw [if_pos h] at ht
        exact ih [] (fun c0 hc0 => absurd hc0 (List.not_mem_nil c0)) t ht
      · rw [if_neg h] at ht
        rcases List.mem_cons.mp ht with rfl | ht
        · exact ⟨fun hr => h (List.reverse_eq_nil_iff.mp hr),
            fun c0 hc0 => hcur c0 (List.mem_reverse.mp hc0)⟩
        · exact ih [] (fun c0 hc0 => absurd hc0 (List.not_mem_nil c0)) t ht
    · rw [if_neg hsp] at ht
      refine ih (c :: cur) ?_ t ht
      intro c0 hc0
      rcases List.mem_cons.mp hc0 with rfl | hc0
      · exact Bool.eq_false_iff.mpr hsp
      · exact hcur c0 hc0

theorem splitWS_good (l : List Char) : ∀ t ∈ splitWS l, GoodToken t :=
  splitWSAux_good l [] (fun c hc => absurd hc (List.not_mem_nil c))

theorem splitWSAux_token (t : List Char)
    (ht : ∀ c ∈ t, isSpace c = false) :
    ∀ rest cur : List Char,
      splitWSAux (t ++ rest) cur = splitWSAux rest (t.reverse ++ cur) := by
  induction t with
  | nil => intro rest cur; simp
  | cons c t ih =>
    intro rest cur
    have hc : isSpace c = false := ht c (List.mem_cons_self c t)
    rw [List.cons_append, splitWSAux_cons,
      if_neg (by rw [hc]; exact Bool.false_ne_true)]
    rw [ih (fun c0 h0 => ht c0 (List.mem_cons_of_mem c h0)) rest (c :: cur)]
    rw [List.reverse_cons, List.append_assoc, List.singleton_append]

theorem splitWSAux_space (s : Char) (hs : isSpace s = true)
    (rest cur : List Char) :
    splitWSAux (s :: rest) cur =
      (if cur = [] then [] else [cur.reverse]) ++ splitWSAux rest [] := by
  rw [splitWSAux_cons, if_pos hs]
  by_cases h : cur = []
  · rw [if_pos h, if_pos h, List.nil_append]
  · rw [if_neg h, if_neg h, List.singleton_append]

theorem splitWS_joinWords (g : List (List Char))
    (hg : ∀ t ∈ g, GoodToken t) : splitWS (joinWords g) = g := by
  induction g with
  | nil => rfl
  | cons t g ih =>
    cases g with
    | nil =>
      unfold splitWS
      rw [joinWords_single]
      have ht := hg t (List.mem_cons_self t [])
      have h1 := splitWSAux_token t ht.2 [] []
      rw [List.append_nil] at h1
      rw [h1, splitWSAux_nil, List.append_nil,
        if_neg (fun hr => ht.1 (List.reverse_eq_nil_iff.mp hr)),
        List.reverse_reverse]
    | cons t2 g2 =>
      unfold splitWS
      rw [joinWords_cons]
      have ht := hg t (List.mem_cons_self _ _)
      rw [splitWSAux_token t ht.2 (' ' :: joinWords (t2 :: g2)) [],
        List.append_nil]
      rw [splitWSAux_space ' ' (by decide),
        if_neg (fun hr => ht.1 (List.reverse_eq_nil_iff.mp hr)),
        List.reverse_reverse, List.singleton_append]
      congr 1
      exact ih (fun t0 h0 => hg t0 (List.mem_cons_of_mem t h0))

theorem splitWSAux_group (g : List (List Char))
    (hg : ∀ t ∈ g, GoodToken t) (sep : Char) (hsep : isSpace sep = true)
    (rest : List Char) :
    splitWSAux (joinWords g ++ sep :: rest) [] = g ++ splitWSAux rest [] := by
  induction g with
  | nil =>
    simp [joinWords_nil, splitWSAux_space sep hsep]
  | cons t g ih =>
    cases g with
    | nil =>
      rw [joinWords_single]
      have ht := hg t (List.mem_cons_self _ _)
      rw [splitWSAux_token t ht.2 (sep :: rest) [], List.append_nil]
      rw [splitWSAux_space sep hsep,
        if_neg (fun hr => ht.1 (List.reverse_eq_nil_iff.mp hr)),
        List.reverse_reverse]
    | cons t2 g2 =>
      rw [joinWords_cons]
      have ht := hg t (List.mem_cons_self _ _)
      rw [List.append_assoc, List.cons_append]
      rw [splitWSAux_token t ht.2 _ [], List.append_nil]
      rw [splitWSAux_space ' ' (by decide),
        if_neg (fun hr => ht.1 (List.reverse_eq_nil_iff.mp hr)),
        List.reverse_reverse]
      rw [ih (fun t0 h0 => hg t0 (List.mem_cons_of_mem t h0))]
      simp

theorem splitWS_wrapOutput (gs : List (List (List Char)))
    (hgs : ∀ g ∈ gs, ∀ t ∈ g, GoodToken t) :
    splitWS (joinLines (gs.map joinWords)) = gs.flatten := by
  induction gs with
  | nil => rfl
  | cons g gs ih =>
    cases gs with
    | nil =>
      rw [List.map_cons, List.map_nil, joinLines_single,
        splitWS_joinWords g (hgs g (List.mem_cons_self _ _)),
        List.flatten_cons, List.flatten_nil, List.append_nil]
    | cons g2 gs2 =>
      rw [List.map_cons, List.map_cons, joinLines_cons]
      unfold splitWS
      rw [splitWSAux_group g (hgs g (List.mem_cons_self _ _)) '\n'
        (by decide)]
      have ih2 := ih (fun g0 h0 => hgs g0 (List.mem_cons_of_mem g h0))
      rw [List.map_cons] at ih2
      unfold splitWS at ih2
      rw [ih2]
      simp [List.flatten_cons]

theorem splitOnCharAux_noSep (sep : Char) (l : List Char) (hl : sep ∉ l) :
    ∀ rest cur : List Char,
      splitOnCharAux sep (l ++ rest) cur =
        splitOnCharAux sep rest (l.reverse ++ cur) := by
  induction l with
  | nil => intro rest cur; simp
  | cons c l ih =>
    intro rest cur
    have hc : ¬c = sep := fun h => hl (h ▸ List.mem_cons_self c l)
    rw [List.cons_append, splitOnCharAux_cons, if_neg hc]
    rw [ih (fun h => hl (List.mem_cons_of_mem c h)) rest (c :: cur)]
    rw [List.reverse_cons, List.append_assoc, List.singleton_append]

theorem splitOnChar_joinLines (ls : List (List Char)) (hne : ls ≠ [])
    (hl : ∀ l ∈ ls, '\n' ∉ l) : splitOnChar '\n' (joinLines ls) = ls := by
  induction ls with
  | nil => exact absurd rfl hne
  | cons l ls ih =>
    cases ls with
    | nil =>
      unfold splitOnChar
      rw [joinLines_single]
      have h1 := splitOnCharAux_noSep '\n' l (hl l (List.mem_cons_self _ _))
        [] []
      rw [List.append_nil] at h1
      rw [h1, splitOnCharAux_nil, List.append_nil, List.reverse_reverse]
    | cons l2 ls2 =>
      unfold splitOnChar
      rw [joinLines_cons]
      rw [splitOnCharAux_noSep '\n' l (hl l (List.mem_cons_self _ _)) _ []]
      rw [List.append_nil, splitOnCharAux_cons, if_pos rfl,
        List.reverse_reverse]
      congr 1
      exact ih (List.cons_ne_nil l2 ls2)
        (fun l0 h0 => hl l0 (List.mem_cons_of_mem l h0))

theorem joinWords_chars (g : List (List Char)) :
    ∀ c ∈ joinWords g, c = ' ' ∨ ∃ t ∈ g, c ∈ t := by
  induction g with
  | nil =>
    intro c hc
    exact absurd hc (List.not_mem_nil c)
  | cons t g ih =>
    cases g with
    | nil =>
      intro c hc
      rw [joinWords_single] at hc
      exact Or.inr ⟨t, List.mem_cons_self _ _, hc⟩
    | cons t2 g2 =>
      intro c hc
      rw [joinWords_cons] at hc
      rcases List.mem_append.mp hc with hc | hc
      · exact Or.inr ⟨t, List.mem_cons_self _ _, hc⟩
      · rcases List.mem_cons.mp hc with rfl | hc
        · exact Or.inl rfl
        · rcases ih c hc with h | ⟨t0, h0, hc0⟩
          · exact Or.inl h
          · exact Or.inr ⟨t0, List.mem_cons_of_mem t h0, hc0⟩

theorem joinWords_no_newline (g : List (List Char))
    (hg : ∀ t ∈ g, GoodToken t) : '\n' ∉ joinWords g := by
  intro hmem
  rcases joinWords_chars g '\n' hmem with h | ⟨t, ht, hc⟩
  · exact absurd h (by decide)
  · exact absurd ((hg t ht).2 '\n' hc) (by decide)

theorem wrapWords_flatten (mw : Nat) (ws : List (List Char)) :
    ∀ cur, (wrapWords mw cur ws).flatten = cur ++ ws := by
  induction ws with
  | nil =>
    intro cur
    rw [wrapWords_nil]
    by_cases h : cur = []
    · rw [if_pos h, h]
      rfl
    · rw [if_neg h]
      simp
  | cons w ws ih =>
    intro cur
    rw [wrapWords_cons]
    by_cases h1 : mw < (joinWords (cur ++ [w])).length
    · rw [if_pos h1]
      by_cases h2 : cur = []
      · rw [if_pos h2, h2, List.flatten_cons, ih []]
        simp
      · rw [if_neg h2, List.flatten_cons, ih [w]]
        simp
    · rw [if_neg h1, ih (cur ++ [w])]
      simp

theorem wrapWords_groups (mw : Nat) (ws : List (List Char)) :
    ∀ cur, (cur = [] ∨ (joinWords cur).length ≤ mw ∨ ∃ w0, cur = [w0]) →
      ∀ g ∈ wrapWords mw cur ws,
        g ≠ [] ∧ ((joinWords g).length ≤ mw ∨ ∃ w0, g = [w0]) := by
  induction ws with
  | nil =>
    intro cur hinv g hg
    rw [wrapWords_nil] at hg
    by_cases h : cur = []
    · rw [if_pos h] at hg
      exact absurd hg (List.not_mem_nil g)
    · rw [if_neg h] at hg
      rw [List.mem_singleton] at hg
      subst hg
      rcases hinv with h0 | h0 | h0
      · exact absurd h0 h
      · exact ⟨h, Or.inl h0⟩
      · exact ⟨h, Or.inr h0⟩
  | cons w ws ih =>
    intro cur hinv g hg
    rw [wrapWords_cons] at hg
    by_cases h1 : mw < (joinWords (cur ++ [w])).length
    · rw [if_pos h1] at hg
      by_cases h2 : cur = []
      · rw [if_pos h2] at hg
        rcases List.mem_cons.mp hg with rfl | hg
        · exact ⟨List.cons_ne_nil _ _, Or.inr ⟨w, rfl⟩⟩
        · exact ih [] (Or.inl rfl) g hg
      · rw [if_neg h2] at hg
        rcases List.mem_cons.mp hg with rfl | hg
        · rcases hinv with h0 | h0 | h0
          · exact absurd h0 h2
          · exact ⟨h2, Or.inl h0⟩
          · exact ⟨h2, Or.inr h0⟩
        · exact ih [w] (Or.inr (Or.inr ⟨w, rfl⟩)) g hg
    · rw [if_neg h1] at hg
      exact ih (cur ++ [w]) (Or.inr (Or.inl (not_lt.mp h1))) g hg

/-! ## Timestamp codec lemmas -/

theorem pyInt_of_nonneg (q : ℚ) (h : 0 ≤ q) : pyInt q = ⌊q⌋ :=
  if_neg (not_lt.mpr h)

theorem pyInt_intCast (n : ℤ) : pyInt (n : ℚ) = n := by
  unfold pyInt
  by_cases h : (n : ℚ) < 0
  · rw [if_pos h, ← Int.cast_neg, Int.floor_intCast, neg_neg]
  · rw [if_neg h, Int.floor_intCast]

theorem pyMod_nonneg (a b : ℚ) (hb : 0 < b) : 0 ≤ pyMod a b := by
  unfold pyMod
  rw [mul_comm]
  exact Int.sub_floor_div_mul_nonneg a hb

theorem pyMod_lt (a b : ℚ) (hb : 0 < b) : pyMod a b < b := by
  unfold pyMod
  rw [mul_comm]
  exact Int.sub_floor_div_mul_lt a hb

theorem hoursOf_eq (s : ℚ) : hoursOf s = ⌊s / 3600⌋ := by
  unfold hoursOf pyFloorDiv
  exact pyInt_intCast _

theorem minutesOf_eq_floor (s : ℚ) : minutesOf s = ⌊pyMod s 3600 / 60⌋ := by
  unfold minutesOf pyFloorDiv
  exact pyInt_intCast _

theorem secsOf_eq_floor (s : ℚ) : secsOf s = ⌊pyMod s 60⌋ := by
  unfold secsOf
  exact pyInt_of_nonneg _ (pyMod_nonneg s 60 (by norm_num))

theorem millisOf_eq_floor (s : ℚ) : millisOf s = ⌊pyMod s 1 * 1000⌋ := by
  unfold millisOf
  exact pyInt_of_nonneg _
    (mul_nonneg (pyMod_nonneg s 1 one_pos) (by norm_num))

theorem pyMod_one (s : ℚ) : pyMod s 1 = s - ⌊s⌋ := by
  unfold pyMod
  rw [div_one]
  ring

theorem millisOf_eq (s : ℚ) : millisOf s = ⌊(s - ⌊s⌋) * 1000⌋ := by
  rw [millisOf_eq_floor, pyMod_one]

theorem minutesOf_eq (s : ℚ) :
    minutesOf s = ⌊s / 60⌋ - 60 * ⌊s / 3600⌋ := by
  rw [minutesOf_eq_floor]
  unfold pyMod
  have h1 : (s - 3600 * (⌊s / 3600⌋ : ℚ)) / 60 =
      s / 60 - ((60 * ⌊s / 3600⌋ : ℤ) : ℚ) := by
    push_cast
    ring
  rw [h1, Int.floor_sub_int]

theorem secsOf_eq (s : ℚ) : secsOf s = ⌊s⌋ - 60 * ⌊s / 60⌋ := by
  rw [secsOf_eq_floor]
  unfold pyMod
  have h1 : s - 60 * (⌊s / 60⌋ : ℚ) = s - ((60 * ⌊s / 60⌋ : ℤ) : ℚ) := by
    push_cast
    ring
  rw [h1, Int.floor_sub_int]

theorem hms_floor (s : ℚ) :
    hoursOf s * 3600 + minutesOf s * 60 + secsOf s = ⌊s⌋ := by
  rw [hoursOf_eq, minutesOf_eq, secsOf_eq]
  ring

theorem hoursOf_nonneg (s : ℚ) (hs : 0 ≤ s) : 0 ≤ hoursOf s := by
  rw [hoursOf_eq]
  exact Int.floor_nonneg.mpr (div_nonneg hs (by norm_num))

theorem hoursOf_ge_100 (s : ℚ) (hs : 360000 ≤ s) : 100 ≤ hoursOf s := by
  rw [hoursOf_eq]
  refine Int.le_floor.mpr ?_
  rw [le_div_iff₀ (by norm_num : (0:ℚ) < 3600)]
  push_cast
  linarith

theorem minutesOf_nonneg (s : ℚ) : 0 ≤ minutesOf s := by
  rw [minutesOf_eq_floor]
  exact Int.floor_nonneg.mpr
    (div_nonneg (pyMod_nonneg s 3600 (by norm_num)) (by norm_num))

theorem minutesOf_lt (s : ℚ) : minutesOf s < 60 := by
  rw [minutesOf_eq_floor]
  refine Int.floor_lt.mpr ?_
  have h := pyMod_lt s 3600 (by norm_num)
  rw [div_lt_iff₀ (by norm_num : (0:ℚ) < 60)]
  push_cast
  linarith

theorem secsOf_nonneg (s : ℚ) : 0 ≤ secsOf s := by
  rw [secsOf_eq_floor]
  exact Int.floor_nonneg.mpr (pyMod_nonneg s 60 (by norm_num))

theorem secsOf_lt (s : ℚ) : secsOf s < 60 := by
  rw [secsOf_eq_floor]
  refine Int.floor_lt.mpr ?_
  have h := pyMod_lt s 60 (by norm_num)
  push_cast
  linarith

theorem millisOf_nonneg (s : ℚ) : 0 ≤ millisOf s := by
  rw [millisOf_eq_floor]
  exact Int.floor_nonneg.mpr
    (mul_nonneg (pyMod_nonneg s 1 one_pos) (by norm_num))

theorem millisOf_lt (s : ℚ) : millisOf s < 1000 := by
  rw [millisOf_eq_floor]
  refine Int.floor_lt.mpr ?_
  have h := pyMod_lt s 1 one_pos
  push_cast
  nlinarith [pyMod_nonneg s 1 one_pos]

/-! ## Digit rendering lemmas -/

theorem natDigitsAux_congr (f1 : Nat) :
    ∀ f2 n, n < f1 → n < f2 → natDigitsAux f1 n = natDigitsAux f2 n := by
  induction f1 with
  | zero => intro f2 n h1 _; omega
  | succ f1 ih =>
    intro f2 n h1 h2
    cases f2 with
    | zero => omega
    | succ f2 =>
      by_cases h : n < 10
      · simp only [natDigitsAux, if_pos h]
      · simp only [natDigitsAux, if_neg h]
        have hdiv : n / 10 < n := Nat.div_lt_self (by omega) (by omega)
        rw [ih f2 (n / 10) (by omega) (by omega)]

theorem natDigits_eq (n : Nat) :
    natDigits n = if n < 10 then [digitChar n]
      else natDigits (n / 10) ++ [digitChar (n % 10)] := by
  have hstep : natDigits n =
      if n < 10 then [digitChar n]
      else natDigitsAux n (n / 10) ++ [digitChar (n % 10)] := rfl
  by_cases h : n < 10
  · rw [hstep, if_pos h, if_pos h]
  · rw [hstep, if_neg h, if_neg h]
    congr 1
    show natDigitsAux n (n / 10) = natDigitsAux (n / 10 + 1) (n / 10)
    have hdiv : n / 10 < n := Nat.div_lt_self (by omega) (by omega)
    exact natDigitsAux_congr n (n / 10 + 1) (n / 10) hdiv (by omega)

theorem natDigits_length_pos (n : Nat) : 1 ≤ (natDigits n).length := by
  rw [natDigits_eq]
  by_cases h : n < 10
  · rw [if_pos h]
    exact le_refl 1
  · rw [if_neg h, List.length_append]
    simp

theorem natDigits_length_le2 (n : Nat) (h : n < 100) :
    (natDigits n).length ≤ 2 := by
  rw [natDigits_eq]
  by_cases h10 : n < 10
  · rw [if_pos h10]
    exact one_le_two
  · rw [if_neg h10, List.length_append]
    have h1 : (natDigits (n / 10)).length = 1 := by
      rw [natDigits_eq, if_pos (by omega)]
      rfl
    simp [h1]

theorem natDigits_length_le3 (n : Nat) (h : n < 1000) :
    (natDigits n).length ≤ 3 := by
  rw [natDigits_eq]
  by_cases h10 : n < 10
  · rw [if_pos h10]
    simp
  · rw [if_neg h10, List.length_append]
    have h1 : (natDigits (n / 10)).length ≤ 2 :=
      natDigits_length_le2 (n / 10) (by omega)
    simp
    omega

theorem natDigits_length_ge3 (n : Nat) (h : 100 ≤ n) :
    3 ≤ (natDigits n).length := by
  rw [natDigits_eq, if_neg (by omega), List.length_append]
  have h2 : 2 ≤ (natDigits (n / 10)).length := by
    rw [natDigits_eq, if_neg (by omega : ¬ n / 10 < 10), List.length_append]
    have := natDigits_length_pos (n / 10 / 10)
    simp
    omega
  simp
  omega

theorem digitChar_isDigit : ∀ d, d < 10 → (digitChar d).isDigit = true := by
  decide

theorem natDigits_isDigit (n : Nat) : ∀ c ∈ natDigits n, c.isDigit = true := by
  induction n using Nat.strong_induction_on with
  | _ n ih =>
    intro c hc
    rw [natDigits_eq] at hc
    by_cases h : n < 10
    · rw [if_pos h] at hc
      rw [List.mem_singleton] at hc
      subst hc
      exact digitChar_isDigit n h
    · rw [if_neg h] at hc
      rcases List.mem_append.mp hc with hc | hc
      · exact ih (n / 10) (Nat.div_lt_self (by omega) (by omega)) c hc
      · rw [List.mem_singleton] at hc
        subst hc
        exact digitChar_isDigit _ (Nat.mod_lt _ (by omega))

theorem zeroPad_length (w : Nat) (ds : List Char) :
    (zeroPad w ds).length = max w ds.length := by
  unfold zeroPad
  rw [List.length_append, List.length_replicate]
  omega

theorem zeroPad_isDigit (w : Nat) (ds : List Char)
    (h : ∀ c ∈ ds, c.isDigit = true) :
    ∀ c ∈ zeroPad w ds, c.isDigit = true := by
  intro c hc
  unfold zeroPad at hc
  rcases List.mem_append.mp hc with hc | hc
  · rw [List.eq_of_mem_replicate hc]
    decide
  · exact h c hc

theorem pyPad_of_nonneg (w : Nat) (n : ℤ) (h : 0 ≤ n) :
    pyPad w n = zeroPad w (natDigits n.natAbs) :=
  if_neg (not_lt.mpr h)

/-! ## Claim theorems

The arithmetic primitives of `Rat` are sealed against unfolding in
Batteries; re-opening them lets concrete renderings be checked by
kernel evaluation. -/

attribute [local semireducible] Rat.add Rat.mul Rat.inv Rat.sub

/-- C1: rendering the one-segment transcript
`{full_text: "Hello world.", language: "en", duration: 2.0,
segments: [{start: 0.0, end: 1.0, text: "Hello world.", speaker: null,
confidence: 0.95}]}` with `SRTFormatter.format` returns exactly
`"1\n00:00:00,000 --> 00:00:01,000\nHello world."` after
trailing-whitespace trimming. -/
theorem c1_srt_concrete :
    srt_format
      ⟨("Hello world.".toList), ("en".toList),
        [⟨0, 1, ("Hello world.".toList), none, some (95/100)⟩], 2, none⟩ =
      ("1\n00:00:00,000 --> 00:00:01,000\nHello world.".toList) := by
  decide

/-- C5: `FormatterFactory.get_formatter` succeeds exactly when the
lowercased identifier is a key of the fixed `FORMATTERS` table, returns
the identical formatter for identifiers differing only in case, and for
any other identifier fails with the error carrying the identifier as
given. -/
theorem c5_registry :
    (∀ name : List Char,
        (∃ f, get_formatter name = .ok f) ↔
          pyLower name ∈ FORMATTERS.map Prod.fst) ∧
    (∀ name name' : List Char, ∀ f : OutputFormatter,
        pyLower name = pyLower name' →
        get_formatter name = .ok f → get_formatter name' = .ok f) ∧
    (∀ name : List Char, pyLower name ∉ FORMATTERS.map Prod.fst →
        get_formatter name = .error name) :=
  ⟨get_formatter_ok_iff, get_formatter_congr, get_formatter_error⟩

theorem c5_registry_witness :
    pyLower ("SRT".toList) = pyLower ("srt".toList) ∧
    get_formatter ("srt".toList) = .ok OutputFormatter.srt ∧
    get_formatter ("SRT".toList) = .ok OutputFormatter.srt ∧
    get_formatter ("srtx".toList) = .error ("srtx".toList) :=
  ⟨by decide, by rfl,
   c5_registry.2.1 ("srt".toList) ("SRT".toList) OutputFormatter.srt
     (by decide) (by rfl),
   c5_registry.2.2 ("srtx".toList) (by decide)⟩

/-- C6, counterexample: the Report renderer (`MarkdownFormatter.format`)
embeds `datetime.now().isoformat()` in its output, so two invocations on
the identical `TranscriptionResult` value made at different clock
readings return different strings — the output is not a function of the
transcript alone. -/
theorem c6_counterexample :
    ("2024-01-01T00:00:00".toList) ≠ ("2024-01-01T00:00:01".toList) ∧
    invoke_markdown
        ⟨("t".toList), ("en".toList), [], 2, none⟩
        ("2024-01-01T00:00:00".toList) ≠
      invoke_markdown
        ⟨("t".toList), ("en".toList), [], 2, none⟩
        ("2024-01-01T00:00:01".toList) := by
  exact ⟨by decide, by decide⟩

/-- C6, amended: every renderer's output is a pure function of the
transcript and the wall-clock reading of the invocation; the PlainText,
SRT and VTT renderers ignore the clock entirely (repeat invocations on
the same value agree unconditionally), while the Markdown and JSON
renderers embed the clock reading, so their invocations agree whenever
the clock readings agree. -/
theorem c6_amended (r : TranscriptionResult) (n n' : List Char) :
    invoke_plain r n = invoke_plain r n' ∧
    invoke_srt r n = invoke_srt r n' ∧
    invoke_vtt r n = invoke_vtt r n' ∧
    (n = n' →
      invoke_markdown r n = invoke_markdown r n' ∧
      invoke_json r n = invoke_json r n') :=
  ⟨rfl, rfl, rfl, fun h => by rw [h]; exact ⟨rfl, rfl⟩⟩

theorem c6_amended_witness :
    (("T".toList) : List Char) = ("T".toList) ∧
    invoke_markdown ⟨("t".toList), ("en".toList), [], 2, none⟩ ("T".toList) =
      invoke_markdown ⟨("t".toList), ("en".toList), [], 2, none⟩ ("T".toList) :=
  ⟨rfl,
   (c6_amended ⟨("t".toList), ("en".toList), [], 2, none⟩
     ("T".toList) ("T".toList)).2.2.2 rfl |>.1⟩

/-- C7: on a transcript with no segments the Cue-A, Cue-B and Report
renderers return normally with header-only content: `SRTFormatter`
yields the empty string (no cue numbers or timing lines),
`VTTFormatter` yields exactly its fixed `WEBVTT` header token, and
`MarkdownFormatter` yields exactly its header lines with no cues. -/
theorem c7_empty_segments (r : TranscriptionResult) (now : List Char)
    (h : r.segments = []) :
    srt_format r = [] ∧
    vtt_format r = ("WEBVTT".toList) ∧
    markdown_format r now =
      joinLines [("# Transcript".toList), [], mdMeta r now, [],
        ("---".toList), []] := by
  obtain ⟨txt, lang, segs, dur, raw⟩ := r
  cases segs with
  | nil => exact ⟨rfl, rfl, rfl⟩
  | cons a l => exact absurd h (List.cons_ne_nil a l)

theorem c7_empty_segments_witness :
    (⟨("t".toList), ("en".toList), [], 2, none⟩ :
        TranscriptionResult).segments = [] ∧
    (srt_format ⟨("t".toList), ("en".toList), [], 2, none⟩ = [] ∧
     vtt_format ⟨("t".toList), ("en".toList), [], 2, none⟩ =
       ("WEBVTT".toList) ∧
     markdown_format ⟨("t".toList), ("en".toList), [], 2, none⟩
         ("T".toList) =
       joinLines [("# Transcript".toList), [],
         mdMeta ⟨("t".toList), ("en".toList), [], 2, none⟩ ("T".toList), [],
         ("---".toList), []]) :=
  ⟨rfl, c7_empty_segments ⟨("t".toList), ("en".toList), [], 2, none⟩
    ("T".toList) rfl⟩

/-- C8, counterexample: a transcript whose `raw_response` field is
present but an empty dict falsifies the claim — `JSONFormatter.format`
tests Python truthiness (`if result.raw_response:`), so the present
mapping is NOT attached under the `raw_api_response` top-level key. -/
theorem c8_counterexample :
    (⟨("t".toList), ("en".toList), [], 2, some []⟩ :
        TranscriptionResult).raw_response ≠ none ∧
    ("raw_api_response".toList) ∉
      jsonTopKeys ⟨("t".toList), ("en".toList), [], 2, some []⟩
        ("T".toList) := by
  refine ⟨fun h => Option.noConfusion h, by decide⟩

/-- C8, amended: `JSONFormatter.format` attaches the raw-response
mapping under the distinct top-level key `raw_api_response` exactly when
the field is present AND non-empty (Python truthiness); in particular
when the field is absent the output has no such key. -/
theorem c8_raw_key (r : TranscriptionResult) (now : List Char) :
    ("raw_api_response".toList) ∈ jsonTopKeys r now ↔
      ∃ raw, r.raw_response = some raw ∧ raw ≠ [] := by
  unfold jsonTopKeys json_format_data
  cases hr : r.raw_response with
  | none =>
    constructor
    · intro h
      have h2 : ("raw_api_response".toList) ∈
          (["metadata".toList, "transcript".toList, "segments".toList] :
            List (List Char)) := h
      exact absurd h2 (by decide)
    · rintro ⟨raw, h, -⟩
      exact Option.noConfusion h
  | some raw =>
    cases raw with
    | nil =>
      constructor
      · intro h
        have h2 : ("raw_api_response".toList) ∈
            (["metadata".toList, "transcript".toList, "segments".toList] :
              List (List Char)) := h
        exact absurd h2 (by decide)
      · rintro ⟨raw', h1, h2⟩
        injection h1 with h1
        exact absurd h1.symm h2
    | cons p rest =>
      constructor
      · intro _
        exact ⟨p :: rest, rfl, List.cons_ne_nil p rest⟩
      · intro _
        exact (by decide :
          ("raw_api_response".toList) ∈
            (["metadata".toList, "transcript".toList, "segments".toList,
              "raw_api_response".toList] : List (List Char)))

/-! ### Path join lemmas -/

theorem joinPathComponents_append_last (ps : List (List Char))
    (f : List Char) (hps : ps ≠ []) :
    joinPathComponents (ps ++ [f]) = joinPathComponents ps ++ '/' :: f := by
  induction ps with
  | nil => exact absurd rfl hps
  | cons c ps ih =>
    cases ps with
    | nil => rfl
    | cons c2 ps2 =>
      have h2 := ih (List.cons_ne_nil c2 ps2)
      show c ++ '/' :: joinPathComponents ((c2 :: ps2) ++ [f]) =
        (c ++ '/' :: joinPathComponents (c2 :: ps2)) ++ '/' :: f
      rw [h2]
      simp

theorem splitOnChar_noSep (sep : Char) (l : List Char) (hl : sep ∉ l) :
    splitOnChar sep l = [l] := by
  unfold splitOnChar
  have h := splitOnCharAux_noSep sep l hl [] []
  rw [List.append_nil] at h
  rw [h, splitOnCharAux_nil, List.append_nil, List.reverse_reverse]

theorem rootOf_eq_nil (s : List Char) (h : '/' ∉ s) : rootOf s = [] := by
  cases s with
  | nil => rfl
  | cons c cs =>
    have hc : c ≠ '/' := fun hh => h (hh ▸ List.mem_cons_self c cs)
    have hhead : ∀ (k : Nat) (r : List Char),
        ¬((c :: cs).take (k + 1) = '/' :: r) := by
      intro k r hh
      rw [List.take_succ_cons, List.cons.injEq] at hh
      exact hc hh.1
    unfold rootOf
    rw [if_neg (hhead 2 ['/', '/']), if_neg (hhead 1 ['/']),
      if_neg (hhead 0 [])]

theorem pathParts_plain (f : List Char) (hf : PlainName f) :
    pathParts f = [f] := by
  obtain ⟨h1, h2, h3⟩ := hf
  unfold pathParts
  rw [splitOnChar_noSep '/' f h3]
  have hk : keepComp f = true := decide_eq_true ⟨h1, h2⟩
  simp [hk]

theorem pathJoin_plain (dir f : List Char) (hdir : CanonicalDir dir)
    (hf : PlainName f) : pathJoin dir f = dir ++ '/' :: f := by
  obtain ⟨hrender, hne⟩ := hdir
  have hroot : rootOf f = [] := rootOf_eq_nil f hf.2.2
  unfold pathJoin
  rw [hroot, if_neg (fun hh => hh rfl), pathParts_plain f hf]
  unfold renderPath
  rw [if_neg (by simp)]
  rw [joinPathComponents_append_last (pathParts dir) f hne]
  have hdir2 : rootOf dir ++ joinPathComponents (pathParts dir) = dir := by
    conv_rhs => rw [← hrender]
    unfold renderPath
    rw [if_neg hne]
  rw [← List.append_assoc, hdir2]

/-- C9, counterexample: the claimed universal formula
`{directory}/{baseName}.{language}.{formatId}` fails at the base name
`/abs` — `pathlib`'s join discards the output directory when the
interpolated filename is absolute, so the source returns
`/abs.en.srt`, not `out//abs.en.srt`. -/
theorem c9_counterexample :
    (generate_output_path [] ("/abs".toList) ("en".toList) ("srt".toList)
        ("out".toList)).map Prod.snd = .ok ("/abs.en.srt".toList) ∧
    ("/abs.en.srt".toList : List Char) ≠
      ("out".toList) ++ '/' ::
        (("/abs".toList) ++ '.' :: ("en".toList) ++ '.' ::
          ("srt".toList)) := by
  exact ⟨by rfl, by decide⟩

/-- C9, amended: `generate_output_path` returns the `pathlib` join of
the directory with the interpolated filename
`{base_name}.{language}.{format}`; whenever the directory is in
canonical form and the three components contain no path separator this
is exactly the path `{directory}/{baseName}.{language}.{formatId}`
(an absolute interpolated filename instead discards the directory).
Two calls with identical arguments return the identical path string,
and the second call does not raise even though the directory already
exists after the first. -/
theorem c9_output_path (fs : List (List Char))
    (base_name language format output_dir : List Char) :
    (∃ fs1,
      generate_output_path fs base_name language format output_dir =
        .ok (fs1, pathJoin output_dir
          (base_name ++ '.' :: language ++ '.' :: format)) ∧
      generate_output_path fs1 base_name language format output_dir =
        .ok (fs1, pathJoin output_dir
          (base_name ++ '.' :: language ++ '.' :: format))) ∧
    (CanonicalDir output_dir → '/' ∉ base_name → '/' ∉ language →
      '/' ∉ format →
      pathJoin output_dir (base_name ++ '.' :: language ++ '.' :: format) =
        output_dir ++ '/' ::
          (base_name ++ '.' :: language ++ '.' :: format)) := by
  constructor
  · unfold generate_output_path mkdir
    by_cases h : output_dir ∈ fs
    · exact ⟨fs, by simp [h], by simp [h]⟩
    · exact ⟨output_dir :: fs, by simp [h], by simp⟩
  · intro hdir hb hl hf
    refine pathJoin_plain output_dir _ hdir ⟨?_, ?_, ?_⟩
    · cases base_name <;> simp
    · intro hh
      have hlen := congrArg List.length hh
      simp [List.length_append] at hlen
      omega
    · intro hh
      rcases List.mem_append.mp hh with h1 | h1
      · rcases List.mem_append.mp h1 with h2 | h2
        · exact hb h2
        · rcases List.mem_cons.mp h2 with h3 | h3
          · exact absurd h3 (by decide)
          · exact hl h3
      · rcases List.mem_cons.mp h1 with h2 | h2
        · exact absurd h2 (by decide)
        · exact hf h2

theorem c9_output_path_witness :
    CanonicalDir ("out".toList) ∧ '/' ∉ ("clip".toList) ∧
    '/' ∉ ("en".toList) ∧ '/' ∉ ("cue-a".toList) ∧
    pathJoin ("out".toList)
        (("clip".toList) ++ '.' :: ("en".toList) ++ '.' ::
          ("cue-a".toList)) =
      ("out".toList) ++ '/' ::
        (("clip".toList) ++ '.' :: ("en".toList) ++ '.' ::
          ("cue-a".toList)) :=
  ⟨⟨by decide, by decide⟩, by decide, by decide, by decide,
   (c9_output_path [] ("clip".toList) ("en".toList) ("cue-a".toList)
     ("out".toList)).2 ⟨by decide, by decide⟩ (by decide) (by decide)
     (by decide)⟩

/-- C10: `generate_output_path` interpolates its arguments into the
filename verbatim (no sanitization) and joins it onto the directory,
so the base name `../x` yields the path `out/../x.en.srt`, which
resolves to `x.en.srt` — outside the output directory `out` — while
the separate `sanitize_filename` (which `generate_output_path` never
applies) would have rewritten `../x` to `-x`. -/
theorem c10_verbatim :
    (∀ (fs : List (List Char))
        (base_name language format output_dir : List Char),
        (generate_output_path fs base_name language format
            output_dir).map Prod.snd =
          .ok (pathJoin output_dir
            (base_name ++ '.' :: language ++ '.' :: format))) ∧
    pathJoin ("out".toList)
        (("../x".toList) ++ '.' :: ("en".toList) ++ '.' ::
          ("srt".toList)) =
      ("out/../x.en.srt".toList) ∧
    normalizePath ("out/../x.en.srt".toList) = ("x.en.srt".toList) ∧
    (normalizePath ("out/../x.en.srt".toList)).take 4 ≠
      ("out/".toList) ∧
    sanitize_filename ("../x".toList) = ("-x".toList) ∧
    sanitize_filename ("../x".toList) ≠ ("../x".toList) := by
  refine ⟨?_, by decide, by decide, by decide, by decide, by decide⟩
  intro fs base_name language format output_dir
  unfold generate_output_path mkdir
  by_cases h : output_dir ∈ fs <;> simp [h, Except.map]

/-- C3: for every `seconds ≥ 0` the milliseconds field used by both
`seconds_to_srt_time` and `seconds_to_vtt_time` is the floor (truncation,
never rounding up) of the fractional part times 1000, and the value
reconstructed as `h*3600 + m*60 + s + ms/1000` is at most one
millisecond below the input and never above it. -/
theorem c3_millis_truncation (s : ℚ) (_hs : 0 ≤ s) :
    millisOf s = ⌊(s - ⌊s⌋) * 1000⌋ ∧
    (hoursOf s : ℚ) * 3600 + (minutesOf s : ℚ) * 60 + (secsOf s : ℚ) +
        (millisOf s : ℚ) / 1000 ≤ s ∧
    s - ((hoursOf s : ℚ) * 3600 + (minutesOf s : ℚ) * 60 + (secsOf s : ℚ) +
        (millisOf s : ℚ) / 1000) ≤ 1 / 1000 := by
  have hms : ((hoursOf s * 3600 + minutesOf s * 60 + secsOf s : ℤ) : ℚ) =
      ((⌊s⌋ : ℤ) : ℚ) := by
    exact_mod_cast congrArg (fun z : ℤ => (z : ℚ)) (hms_floor s)
  have hr : (hoursOf s : ℚ) * 3600 + (minutesOf s : ℚ) * 60 +
      (secsOf s : ℚ) = (⌊s⌋ : ℚ) := by
    push_cast at hms
    linarith
  have hmil := millisOf_eq s
  have h1 : ((millisOf s : ℤ) : ℚ) ≤ (s - ⌊s⌋) * 1000 := by
    rw [hmil]
    exact Int.floor_le _
  have h2 : (s - ⌊s⌋) * 1000 < ((millisOf s : ℤ) : ℚ) + 1 := by
    rw [hmil]
    exact Int.lt_floor_add_one _
  refine ⟨hmil, ?_, ?_⟩
  · rw [hr]
    linarith
  · rw [hr]
    linarith

theorem c3_millis_truncation_witness :
    (0 : ℚ) ≤ 3/2 ∧
    (millisOf (3/2) = ⌊((3/2 : ℚ) - ⌊(3/2 : ℚ)⌋) * 1000⌋ ∧
     (hoursOf (3/2) : ℚ) * 3600 + (minutesOf (3/2) : ℚ) * 60 +
         (secsOf (3/2) : ℚ) + (millisOf (3/2) : ℚ) / 1000 ≤ 3/2 ∧
     (3/2 : ℚ) - ((hoursOf (3/2) : ℚ) * 3600 + (minutesOf (3/2) : ℚ) * 60 +
         (secsOf (3/2) : ℚ) + (millisOf (3/2) : ℚ) / 1000) ≤ 1 / 1000) :=
  ⟨by norm_num, c3_millis_truncation (3/2) (by norm_num)⟩

/-- C4: for every `seconds ≥ 0`, `seconds_to_srt_time` renders
`\d{2,}:\d{2}:\d{2},\d{3}` and `seconds_to_vtt_time` renders
`\d{2,}:\d{2}:\d{2}\.\d{3}` over the very same four zero-padded numeric
fields (the outputs differ only in the comma versus dot separator), and
hour values of 100 or more render with more than two digits. -/
theorem c4_time_strings (s : ℚ) (hs : 0 ≤ s) :
    ∃ hh mm ss msf : List Char,
      seconds_to_srt_time s = hh ++ ':' :: mm ++ ':' :: ss ++ ',' :: msf ∧
      seconds_to_vtt_time s = hh ++ ':' :: mm ++ ':' :: ss ++ '.' :: msf ∧
      2 ≤ hh.length ∧ mm.length = 2 ∧ ss.length = 2 ∧ msf.length = 3 ∧
      (∀ c ∈ hh ++ mm ++ ss ++ msf, c.isDigit = true) ∧
      (360000 ≤ s → 3 ≤ hh.length) := by
  refine ⟨pyPad 2 (hoursOf s), pyPad 2 (minutesOf s), pyPad 2 (secsOf s),
    pyPad 3 (millisOf s), rfl, rfl, ?_, ?_, ?_, ?_, ?_, ?_⟩
  · rw [pyPad_of_nonneg 2 _ (hoursOf_nonneg s hs), zeroPad_length]
    exact le_max_left _ _
  · rw [pyPad_of_nonneg 2 _ (minutesOf_nonneg s), zeroPad_length]
    have hlt := minutesOf_lt s
    have hge := minutesOf_nonneg s
    have hle := natDigits_length_le2 (minutesOf s).natAbs (by omega)
    omega
  · rw [pyPad_of_nonneg 2 _ (secsOf_nonneg s), zeroPad_length]
    have hlt := secsOf_lt s
    have hge := secsOf_nonneg s
    have hle := natDigits_length_le2 (secsOf s).natAbs (by omega)
    omega
  · rw [pyPad_of_nonneg 3 _ (millisOf_nonneg s), zeroPad_length]
    have hlt := millisOf_lt s
    have hge := millisOf_nonneg s
    have hle := natDigits_length_le3 (millisOf s).natAbs (by omega)
    omega
  · intro c hc
    rcases List.mem_append.mp hc with hc | hc
    rotate_left
    · rw [pyPad_of_nonneg 3 _ (millisOf_nonneg s)] at hc
      exact zeroPad_isDigit _ _ (natDigits_isDigit _) c hc
    rcases List.mem_append.mp hc with hc | hc
    rotate_left
    · rw [pyPad_of_nonneg 2 _ (secsOf_nonneg s)] at hc
      exact zeroPad_isDigit _ _ (natDigits_isDigit _) c hc
    rcases List.mem_append.mp hc with hc | hc
    · rw [pyPad_of_nonneg 2 _ (hoursOf_nonneg s hs)] at hc
      exact zeroPad_isDigit _ _ (natDigits_isDigit _) c hc
    · rw [pyPad_of_nonneg 2 _ (minutesOf_nonneg s)] at hc
      exact zeroPad_isDigit _ _ (natDigits_isDigit _) c hc
  · intro h360
    rw [pyPad_of_nonneg 2 _ (hoursOf_nonneg s hs), zeroPad_length]
    have h100 := hoursOf_ge_100 s h360
    have hge := natDigits_length_ge3 (hoursOf s).natAbs (by omega)
    omega

theorem c4_time_strings_witness :
    (0 : ℚ) ≤ 0 ∧
    (∃ hh mm ss msf : List Char,
      seconds_to_srt_time 0 = hh ++ ':' :: mm ++ ':' :: ss ++ ',' :: msf ∧
      seconds_to_vtt_time 0 = hh ++ ':' :: mm ++ ':' :: ss ++ '.' :: msf ∧
      2 ≤ hh.length ∧ mm.length = 2 ∧ ss.length = 2 ∧ msf.length = 3 ∧
      (∀ c ∈ hh ++ mm ++ ss ++ msf, c.isDigit = true) ∧
      (360000 ≤ (0:ℚ) → 3 ≤ hh.length)) :=
  ⟨le_refl 0, c4_time_strings 0 (le_refl 0)⟩

/-- C2: for every input text and every `maxWidth > 0`,
`SRTFormatter._wrap_text` produces no output line longer than `maxWidth`
except a line consisting of a single token itself longer than
`maxWidth`, and splitting the output on whitespace yields exactly the
token sequence of splitting the input on whitespace — no token lost,
duplicated or reordered. -/
theorem c2_wrap_text (text : List Char) (maxWidth : Nat)
    (_hw : 0 < maxWidth) :
    (∀ line ∈ splitOnChar '\n' (wrap_text text maxWidth),
        line.length ≤ maxWidth ∨
          (splitWS line = [line] ∧ maxWidth < line.length)) ∧
    splitWS (wrap_text text maxWidth) = splitWS text := by
  have hgood : ∀ g ∈ wrapWords maxWidth [] (splitWS text),
      ∀ t ∈ g, GoodToken t := by
    intro g hg t ht
    have hmem : t ∈ (wrapWords maxWidth [] (splitWS text)).flatten :=
      List.mem_flatten.mpr ⟨g, hg, ht⟩
    rw [wrapWords_flatten maxWidth (splitWS text) [], List.nil_append]
      at hmem
    exact splitWS_good text t hmem
  constructor
  · intro line hline
    unfold wrap_text at hline
    cases hgs : wrapWords maxWidth [] (splitWS text) with
    | nil =>
      rw [hgs, List.map_nil, joinLines_nil] at hline
      have he : splitOnChar '\n' ([] : List Char) = [[]] := rfl
      rw [he, List.mem_singleton] at hline
      subst hline
      exact Or.inl (by simp)
    | cons g0 gs0 =>
      rw [hgs] at hline
      have hlines : splitOnChar '\n'
          (joinLines ((g0 :: gs0).map joinWords)) =
            (g0 :: gs0).map joinWords := by
        refine splitOnChar_joinLines _ (by simp) ?_
        intro l hl
        rcases List.mem_map.mp hl with ⟨g, hgmem, rfl⟩
        exact joinWords_no_newline g
          (hgood g (by rw [hgs]; exact hgmem))
      rw [hlines] at hline
      rcases List.mem_map.mp hline with ⟨g, hgmem, rfl⟩
      have hgmem' : g ∈ wrapWords maxWidth [] (splitWS text) := by
        rw [hgs]
        exact hgmem
      have hgrp := wrapWords_groups maxWidth (splitWS text) []
        (Or.inl rfl) g hgmem'
      rcases hgrp.2 with hle | ⟨w0, rfl⟩
      · exact Or.inl hle
      · by_cases hlen : (joinWords [w0]).length ≤ maxWidth
        · exact Or.inl hlen
        · refine Or.inr ⟨?_, not_le.mp hlen⟩
          rw [joinWords_single]
          have hg0 : GoodToken w0 :=
            hgood [w0] hgmem' w0 (List.mem_cons_self _ _)
          have h1 := splitWS_joinWords [w0]
            (fun t ht => by
              rw [List.mem_singleton] at ht
              subst ht
              exact hg0)
          rw [joinWords_single] at h1
          exact h1
  · unfold wrap_text
    rw [splitWS_wrapOutput (wrapWords maxWidth [] (splitWS text)) hgood,
      wrapWords_flatten maxWidth (splitWS text) [], List.nil_append]

theorem c2_wrap_text_witness :
    0 < 8 ∧
    ((∀ line ∈ splitOnChar '\n' (wrap_text ("aaaa bbbb cc".toList) 8),
        line.length ≤ 8 ∨ (splitWS line = [line] ∧ 8 < line.length)) ∧
     splitWS (wrap_text ("aaaa bbbb cc".toList) 8) =
       splitWS ("aaaa bbbb cc".toList)) :=
  ⟨by decide, c2_wrap_text ("aaaa bbbb cc".toList) 8 (by decide)⟩

end Transcriber
